import Mathlib

/-!
Verification of the Hoosat address codec
(`src/hoosat-dev/assets/generate-address-standalone.py`).

Modelling conventions:
* Python `str` values are modelled as `List Nat` of Unicode code points
  (all strings handled by the codec are ASCII).
* Python `bytes` and lists of small integers are modelled as `List Nat`.
* Python exceptions raised by the decoder are modelled by the `Except`
  monad with the inductive error type `DecodeErr`; the constructors
  correspond one-to-one to the `raise` sites of the source.
* Arbitrary-precision Python integers are `Nat`; the bitwise operators
  `>>`, `<<`, `&`, `|`, `^` of the source are `>>> <<< &&& ||| ^^^`.
-/

/-- Python `str.lower` restricted to ASCII, per code point:
uppercase letters `A`-`Z` (65-90) map to `a`-`z` (97-122). -/
def pyToLower (c : Nat) : Nat :=
  if 65 ≤ c ∧ c ≤ 90 then c + 32 else c

/-- Python `str.upper` restricted to ASCII, per code point:
lowercase letters `a`-`z` (97-122) map to `A`-`Z` (65-90). -/
def pyToUpper (c : Nat) : Nat :=
  if 97 ≤ c ∧ c ≤ 122 then c - 32 else c

/-- `CHARSET = 'qpzry9x8gf2tvdw0s3jn54khce6mua7l'` (line 26), as code points. -/
def CHARSET : List Nat :=
  [113, 112, 122, 114, 121, 57, 120, 56, 103, 102, 50, 116, 118, 100, 119, 48,
   115, 51, 106, 110, 53, 52, 107, 104, 99, 101, 54, 109, 117, 97, 55, 108]

/-- `CHECKSUM_LENGTH = 8` (line 27). -/
def CHECKSUM_LENGTH : Nat := 8

/-- `GENERATOR` (line 28). -/
def GENERATOR : List Nat :=
  [0x98f2bc8e61, 0x79b76d99e2, 0xf33e5fb3c4, 0xae2eabe2a8, 0x1e4f43e470]

/-- `polymod_step` (lines 156-165): one step of the checksum polymod. -/
def polymod_step (prev value : Nat) : Nat :=
  let b := prev >>> 35
  let c := ((prev &&& 0x7ffffffff) <<< 5) ^^^ value
  (List.range GENERATOR.length).foldl
    (fun c i => if (b >>> i) &&& 1 = 1 then c ^^^ GENERATOR.getD i 0 else c) c

/-- The accumulator value computed inside `calculate_checksum`
(lines 130-146) just before the checksum symbols are extracted:
seed 1, one step per prefix character on `ord(char) & 0x1f`, one step
on 0, one step per data value, eight steps on 0. -/
def checksumPolymod (pfx : List Nat) (data : List Nat) : Nat :=
  let p1 := pfx.foldl (fun p ch => polymod_step p (ch &&& 0x1f)) 1
  let p2 := polymod_step p1 0
  let p3 := data.foldl polymod_step p2
  (List.range CHECKSUM_LENGTH).foldl (fun p _ => polymod_step p 0) p3

/-- `calculate_checksum` (lines 130-153): the 8 checksum symbols
`(polymod >> (5 * (7 - i))) & 0x1f` for `i = 0..7`. -/
def calculate_checksum (pfx : List Nat) (data : List Nat) : List Nat :=
  (List.range CHECKSUM_LENGTH).map
    (fun i => (checksumPolymod pfx data >>> (5 * (7 - i))) &&& 0x1f)

/-- `verify_checksum` (lines 168-174).  The Python negative slices
`data[:-8]` and `data[-8:]` are `take (len - 8)` and `drop (len - 8)`
with truncated subtraction, which also matches Python when `len < 8`
(empty head, whole list as tail).  The `try/except` of the source can
never fire (`calculate_checksum` is total); the function is total here. -/
def verify_checksum (pfx : List Nat) (data : List Nat) : Bool :=
  decide (data.drop (data.length - CHECKSUM_LENGTH) =
    calculate_checksum pfx (data.take (data.length - CHECKSUM_LENGTH)))

/-- The inner `while filled_bits >= to_bits` loop of `convert_bits`
(lines 120-122): emit the top `t` bits repeatedly.  Returns the emitted
symbols and the final `filled_bits`.  (For `t = 0` the Python loop would
not terminate; the codec only calls it with `t = 5` and `t = 8`.) -/
def emitLoop (t nb fb : Nat) : List Nat × Nat :=
  if h : 0 < t ∧ t ≤ fb then
    let r := emitLoop t nb (fb - t)
    (((nb >>> (fb - t)) &&& ((1 <<< t) - 1)) :: r.1, r.2)
  else ([], fb)
termination_by fb
decreasing_by omega

/-- The `for value in data` loop of `convert_bits` (lines 116-122).
State is `(next_byte, filled_bits)`; returns the emitted symbols and
the final state. -/
def cbLoop (w t : Nat) : List Nat → Nat → Nat → List Nat × Nat × Nat
  | [], nb, fb => ([], nb, fb)
  | v :: rest, nb, fb =>
    let nb' := (nb <<< w) ||| v
    let e := emitLoop t nb' (fb + w)
    let r := cbLoop w t rest nb' e.2
    (e.1 ++ r.1, r.2)

/-- `convert_bits` (lines 110-127). -/
def convert_bits (data : List Nat) (from_bits to_bits : Nat) (pad : Bool) :
    List Nat :=
  let r := cbLoop from_bits to_bits data 0 0
  if pad = true ∧ 0 < r.2.2 then
    r.1 ++ [(r.2.1 <<< (to_bits - r.2.2)) &&& ((1 <<< to_bits) - 1)]
  else r.1

/-- `encode_to_base32` (lines 177-179): `CHARSET[b]` for each symbol.
A symbol `≥ 32` would raise `IndexError` in Python; modelled as `none`. -/
def encode_to_base32 : List Nat → Option (List Nat)
  | [] => some []
  | b :: rest =>
    match CHARSET.get? b, encode_to_base32 rest with
    | some c, some r => some (c :: r)
    | _, _ => none

/-- The errors raised by `hoosat_bech32_decode` and its helpers.  The
first four model the `ValueError` raise sites (lines 76, 84, 95, 187);
`indexError` models the untyped Python `IndexError` that `converted[0]`
(line 104) raises when `converted` is empty. -/
inductive DecodeErr where
  | invalidLength (n : Nat)
  | invalidColon
  | invalidChar (c : Nat)
  | checksumFailed
  | indexError
deriving DecidableEq

/-- `decode_from_base32` (lines 182-189): lowercase each character,
fail on the first character outside `CHARSET`, else collect
`CHARSET.index(char)`. -/
def decode_from_base32 : List Nat → Except DecodeErr (List Nat)
  | [] => .ok []
  | c :: rest =>
    let c' := pyToLower c
    if c' ∈ CHARSET then
      match decode_from_base32 rest with
      | .ok r => .ok (CHARSET.indexOf c' :: r)
      | .error e => .error e
    else .error (.invalidChar c')

/-- Python `str.rfind` (line 82): index of the last occurrence of `c`,
or `-1` when absent. -/
def pyRfind (c : Nat) : List Nat → Int
  | [] => -1
  | x :: xs =>
    let r := pyRfind c xs
    if 0 ≤ r then r + 1
    else if x = c then 0 else -1

/-- `hoosat_bech32_encode` (lines 54-69) with the version byte of line 57
(`data = bytes([0x01]) + payload`) generalized to a parameter, matching
the `AddressCodec.encode(prefix, payload, version)` contract the source
instantiates at `0x01`. -/
def hoosat_bech32_encode_ver (pfx : List Nat) (payload : List Nat)
    (version : Nat) : Option (List Nat) :=
  let data := version :: payload
  let converted := convert_bits data 8 5 true
  let checksum := calculate_checksum pfx converted
  let combined := converted ++ checksum
  match encode_to_base32 combined with
  | some s => some (pfx ++ 58 :: s)
  | none => none

/-- `hoosat_bech32_encode` (lines 54-69) exactly as in the source:
the version byte is the constant `0x01`. -/
def hoosat_bech32_encode (pfx : List Nat) (payload : List Nat) :
    Option (List Nat) :=
  hoosat_bech32_encode_ver pfx payload 0x01

/-- `hoosat_bech32_decode` (lines 72-107).  `58` is the code point of
the separator character.  The Python guard `colon_index < 1 or
colon_index + CHECKSUM_LENGTH + 1 > len(normalized)` is kept verbatim
(over `Int`, since `rfind` can return `-1`). -/
def hoosat_bech32_decode (encoded : List Nat) :
    Except DecodeErr (List Nat × List Nat × Nat) :=
  if encoded.length < CHECKSUM_LENGTH + 2 then
    .error (.invalidLength encoded.length)
  else
    let normalized := encoded.map pyToLower
    let colonIndex := pyRfind 58 normalized
    if colonIndex < 1 ∨
        colonIndex + (CHECKSUM_LENGTH : Int) + 1 > (normalized.length : Int) then
      .error .invalidColon
    else
      let pfx := normalized.take colonIndex.toNat
      let dataString := normalized.drop (colonIndex.toNat + 1)
      match decode_from_base32 dataString with
      | .error e => .error e
      | .ok decoded =>
        if verify_checksum pfx decoded then
          match convert_bits (decoded.take (decoded.length - CHECKSUM_LENGTH))
              5 8 false with
          | [] => .error .indexError
          | version :: rest => .ok (pfx, rest, version)
        else .error .checksumFailed

/-- `NETWORK_PREFIXES['mainnet'] = 'hoosat'` (line 196), as code points. -/
def HOOSAT_PREFIX : List Nat := [104, 111, 111, 115, 97, 116]

/-- `NETWORK_PREFIXES['testnet'] = 'hoosattest'` (line 197), as code points. -/
def HOOSATTEST_PREFIX : List Nat :=
  [104, 111, 111, 115, 97, 116, 116, 101, 115, 116]

/-- The validated `network` field of `HoosatAddressGenerator` (lines
200-205): one of `'mainnet'`, `'testnet'`. -/
inductive Network where
  | mainnet
  | testnet
deriving DecidableEq

/-- The WIF version byte of line 214: `0x80` for mainnet, `0xef` for testnet. -/
def wifVersionByte : Network → Nat
  | .mainnet => 0x80
  | .testnet => 0xef

/-- `private_key_to_wif` (lines 211-232).  The external collaborators are
parameters: `sha` models `hashlib.sha256(...).digest()` and `b58encode`
models `base58.b58encode` (both third-party primitives, per spec §6). -/
def private_key_to_wif (sha : List Nat → List Nat)
    (b58encode : List Nat → List Nat) (net : Network)
    (private_key : List Nat) (compressed : Bool) : List Nat :=
  let extended := wifVersionByte net :: private_key ++
    (if compressed then [0x01] else [])
  let checksum := (sha (sha extended)).take 4
  b58encode (extended ++ checksum)

/-- The `ValueError` raise sites of `wif_to_private_key` (lines 246, 254). -/
inductive WifErr where
  | checksumMismatch
  | lengthInvalid
deriving DecidableEq

/-- `wif_to_private_key` (lines 234-257), with the same external
collaborators as parameters.  `decoded[:-4]` / `decoded[-4:]` are
`take (len - 4)` / `drop (len - 4)`; `payload[1:]` is `drop 1` and
`payload[1:-1]` is `drop 1` then `dropLast`. -/
def wif_to_private_key (sha : List Nat → List Nat)
    (b58decode : List Nat → List Nat) (wif : List Nat) :
    Except WifErr (List Nat) :=
  let decoded := b58decode wif
  let payload := decoded.take (decoded.length - 4)
  let checksum := decoded.drop (decoded.length - 4)
  let calculated := (sha (sha payload)).take 4
  if checksum ≠ calculated then .error .checksumMismatch
  else if payload.length = 33 then .ok (payload.drop 1)
  else if payload.length = 34 then .ok ((payload.drop 1).dropLast)
  else .error .lengthInvalid

/-! Reference definitions written from the spec's words (§4.2), used only
to compare against the source's checksum functions (claim about the
checksum matching its reference definition). -/

/-- Modelled from the spec: the §4.2 step function, with the five
generator conditionals written out one by one: "let `top = p >> 35`;
set `p = ((p & 0x7FFFFFFFF) << 5) ^ v`; for each of 5 fixed generator
constants, if the corresponding bit of `top` is set, XOR `p` with that
generator constant." -/
def specPolymodStep (p v : Nat) : Nat :=
  let top := p >>> 35
  let p0 := ((p &&& 0x7FFFFFFFF) <<< 5) ^^^ v
  let p1 := if (top >>> 0) &&& 1 = 1 then p0 ^^^ 0x98f2bc8e61 else p0
  let p2 := if (top >>> 1) &&& 1 = 1 then p1 ^^^ 0x79b76d99e2 else p1
  let p3 := if (top >>> 2) &&& 1 = 1 then p2 ^^^ 0xf33e5fb3c4 else p2
  let p4 := if (top >>> 3) &&& 1 = 1 then p3 ^^^ 0xae2eabe2a8 else p3
  if (top >>> 4) &&& 1 = 1 then p4 ^^^ 0x1e4f43e470 else p4

/-- Modelled from the spec: the §4.2 accumulator: "seeded to 1"; "step
once per character of `prefix` using `(ord(char) & 0x1F)`"; "step once
more with value 0"; "step once per payload symbol"; "step 8 more times
with value 0". -/
def specChecksumPolymod (pfx : List Nat) (payload : List Nat) : Nat :=
  let afterPrefix := pfx.foldl (fun p ch => specPolymodStep p (ch &&& 0x1F)) 1
  let afterSep := specPolymodStep afterPrefix 0
  let afterData := payload.foldl specPolymodStep afterSep
  specPolymodStep (specPolymodStep (specPolymodStep
    (specPolymodStep (specPolymodStep (specPolymodStep (specPolymodStep
    (specPolymodStep afterData 0) 0) 0) 0) 0) 0) 0) 0

/-- Modelled from the spec: the §4.2 checksum: "the low 40 bits of the
accumulator, split into 8 groups of 5 bits, most-significant group
first" (groups extracted arithmetically). -/
def specChecksum (pfx : List Nat) (payload : List Nat) : List Nat :=
  let low40 := specChecksumPolymod pfx payload % 2 ^ 40
  [low40 / 2 ^ 35 % 32, low40 / 2 ^ 30 % 32, low40 / 2 ^ 25 % 32,
   low40 / 2 ^ 20 % 32, low40 / 2 ^ 15 % 32, low40 / 2 ^ 10 % 32,
   low40 / 2 ^ 5 % 32, low40 % 32]

/-- Big-endian value of a list of `w`-bit symbols (proof device used to
characterize `convert_bits`). -/
def beNum (w : Nat) (data : List Nat) : Nat :=
  data.foldl (fun acc v => acc * 2 ^ w + v) 0

/-- The `j`-th `t`-bit group (most-significant first) of the `T`-bit
string with value `S` (proof device). -/
def bitGroup (t S T j : Nat) : Nat :=
  (S >>> (T - t * (j + 1))) &&& (2 ^ t - 1)

/-! ### Bit-arithmetic helpers -/

theorem and_mask_eq_mod (x t : Nat) : x &&& (2 ^ t - 1) = x % 2 ^ t :=
  Nat.and_pow_two_sub_one_eq_mod x t

theorem shiftLeft_one_mask (t : Nat) : (1 <<< t) - 1 = 2 ^ t - 1 := by
  rw [Nat.one_shiftLeft]

theorem lor_shiftLeft_eq_add {w v : Nat} (a : Nat) (hv : v < 2 ^ w) :
    (a <<< w) ||| v = a * 2 ^ w + v := by
  rw [Nat.shiftLeft_eq, Nat.mul_comm a (2 ^ w), ← Nat.mul_add_lt_is_or hv a]

theorem bitGroup_lt (t S T j : Nat) : bitGroup t S T j < 2 ^ t := by
  rw [bitGroup, and_mask_eq_mod]
  exact Nat.mod_lt _ (Nat.pos_pow_of_pos t (by norm_num))

theorem bitGroup_congr_mod {x y n : Nat} (t T : Nat)
    (h : x % 2 ^ n = y % 2 ^ n) (hT : T ≤ n) {j : Nat}
    (hj : t * (j + 1) ≤ T) : bitGroup t x T j = bitGroup t y T j := by
  have hwin : (T - t * (j + 1)) + t ≤ n := by
    have : t * (j + 1) = t * j + t := by ring
    omega
  rw [bitGroup, bitGroup, and_mask_eq_mod, and_mask_eq_mod,
    Nat.shiftRight_eq_div_pow, Nat.shiftRight_eq_div_pow,
    Nat.div_mod_eq_mod_mul_div, Nat.div_mod_eq_mod_mul_div, ← pow_add,
    ← Nat.mod_mod_of_dvd x (pow_dvd_pow 2 hwin),
    ← Nat.mod_mod_of_dvd y (pow_dvd_pow 2 hwin), h]

/-- Groups of the head part of a concatenated bit string ignore the tail. -/
theorem bitGroup_mul_add {H R m : Nat} (t s : Nat) (hR : R < 2 ^ m) :
    (H * 2 ^ m + R) >>> (m + s) &&& (2 ^ t - 1) = (H >>> s) &&& (2 ^ t - 1) := by
  have : (H * 2 ^ m + R) >>> m = H := by
    rw [Nat.shiftRight_eq_div_pow, Nat.mul_comm H (2 ^ m),
      Nat.mul_add_div (Nat.pos_pow_of_pos m (by norm_num)),
      Nat.div_eq_of_lt hR, Nat.add_zero]
  rw [Nat.shiftRight_add, this]

/-! ### `emitLoop` and `beNum` characterizations -/

theorem emitLoop_spec {t : Nat} (ht : 0 < t) (nb : Nat) : ∀ fb : Nat,
    emitLoop t nb fb =
      ((List.range (fb / t)).map
          (fun j => (nb >>> (fb - t * (j + 1))) &&& (2 ^ t - 1)),
        fb % t) := by
  intro fb
  induction fb using Nat.strong_induction_on with
  | _ fb ih =>
    rw [emitLoop]
    split
    · next h =>
      have hle : t ≤ fb := h.2
      rw [ih (fb - t) (by omega)]
      have hdiv : fb / t = (fb - t) / t + 1 := Nat.div_eq_sub_div ht hle
      have hmod : fb % t = (fb - t) % t := Nat.mod_eq_sub_mod hle
      rw [hdiv, hmod, List.range_succ_eq_map, List.map_cons, List.map_map]
      simp only [Prod.mk.injEq, and_true]
      congr 1
      · rw [shiftLeft_one_mask]
        norm_num
      · refine List.map_congr_left (fun j hj => ?_)
        have harith : fb - t * (j + 1 + 1) = (fb - t) - t * (j + 1) := by
          have h2 : t * (j + 1 + 1) = t * (j + 1) + t := by ring
          omega
        simp only [Function.comp_apply, Nat.succ_eq_add_one, harith]
    · next h =>
      have hfb : fb < t := by
        rcases Decidable.not_and_iff_or_not.mp h with h1 | h2
        · omega
        · omega
      simp [Nat.div_eq_of_lt hfb, Nat.mod_eq_of_lt hfb]

theorem beNum_foldl (w : Nat) : ∀ (l : List Nat) (a : Nat),
    l.foldl (fun acc v => acc * 2 ^ w + v) a = a * 2 ^ (w * l.length) + beNum w l := by
  intro l
  induction l with
  | nil => intro a; simp [beNum]
  | cons v rest ih =>
    intro a
    have hb : beNum w (v :: rest) = rest.foldl (fun acc v => acc * 2 ^ w + v) v := by
      simp [beNum]
    simp only [List.foldl_cons, List.length_cons, hb]
    rw [ih (a * 2 ^ w + v), ih v]
    have hp : w * (rest.length + 1) = w * rest.length + w := by ring
    rw [hp, pow_add]
    ring

theorem beNum_cons (w v : Nat) (l : List Nat) :
    beNum w (v :: l) = v * 2 ^ (w * l.length) + beNum w l := by
  have hb : beNum w (v :: l) = l.foldl (fun acc v => acc * 2 ^ w + v) v := by
    simp [beNum]
  rw [hb, beNum_foldl]

theorem beNum_lt (w : Nat) : ∀ l : List Nat, (∀ v ∈ l, v < 2 ^ w) →
    beNum w l < 2 ^ (w * l.length) := by
  intro l
  induction l with
  | nil => intro _; simp [beNum]
  | cons v rest ih =>
    intro hv
    have hvw : v < 2 ^ w := hv v (by simp)
    have hR : beNum w rest < 2 ^ (w * rest.length) :=
      ih (fun x hx => hv x (by simp [hx]))
    have hp : w * (rest.length + 1) = w * rest.length + w := by ring
    rw [beNum_cons, List.length_cons, hp, pow_add]
    calc v * 2 ^ (w * rest.length) + beNum w rest
        < v * 2 ^ (w * rest.length) + 2 ^ (w * rest.length) := by omega
      _ = (v + 1) * 2 ^ (w * rest.length) := by ring
      _ ≤ 2 ^ w * 2 ^ (w * rest.length) := by
          exact Nat.mul_le_mul_right _ (by omega)
      _ = 2 ^ (w * rest.length) * 2 ^ w := by ring

theorem maskShift_congr_mod {x y n : Nat} (t s : Nat)
    (h : x % 2 ^ n = y % 2 ^ n) (hw : s + t ≤ n) :
    (x >>> s) &&& (2 ^ t - 1) = (y >>> s) &&& (2 ^ t - 1) := by
  rw [and_mask_eq_mod, and_mask_eq_mod,
    Nat.shiftRight_eq_div_pow, Nat.shiftRight_eq_div_pow,
    Nat.div_mod_eq_mod_mul_div, Nat.div_mod_eq_mod_mul_div, ← pow_add,
    ← Nat.mod_mod_of_dvd x (pow_dvd_pow 2 hw),
    ← Nat.mod_mod_of_dvd y (pow_dvd_pow 2 hw), h]

/-- Full characterization of the `convert_bits` main loop: starting from
state `(nb, fb)` with `fb < t`, the emitted symbols are the `t`-bit groups
of the bit string obtained by appending the `w`-bit symbols of `data` to
the low `fb` bits of `nb`, the final accumulator is `nb` shifted under the
new symbols, and the final bit count is the total bit count mod `t`. -/
theorem cbLoop_spec {w t : Nat} (ht : 0 < t) :
    ∀ (data : List Nat) (nb fb : Nat), fb < t → (∀ x ∈ data, x < 2 ^ w) →
    cbLoop w t data nb fb =
      ((List.range ((fb + w * data.length) / t)).map
          (bitGroup t ((nb % 2 ^ fb) * 2 ^ (w * data.length) + beNum w data)
            (fb + w * data.length)),
        nb * 2 ^ (w * data.length) + beNum w data,
        (fb + w * data.length) % t) := by
  intro data
  induction data with
  | nil =>
    intro nb fb hfb _
    simp [cbLoop, beNum, Nat.div_eq_of_lt hfb, Nat.mod_eq_of_lt hfb]
  | cons v rest ih =>
    intro nb fb hfb hv
    have hvw : v < 2 ^ w := hv v (by simp)
    have hrest : ∀ x ∈ rest, x < 2 ^ w := fun x hx => hv x (by simp [hx])
    have hR : beNum w rest < 2 ^ (w * rest.length) := beNum_lt w rest hrest
    have h_or : (nb <<< w) ||| v = nb * 2 ^ w + v := lor_shiftLeft_eq_add nb hvw
    have hfb't : (fb + w) % t < t := Nat.mod_lt _ ht
    have he := emitLoop_spec ht (nb * 2 ^ w + v) (fb + w)
    have hr := ih (nb * 2 ^ w + v) ((fb + w) % t) hfb't hrest
    simp only [cbLoop, h_or, he, hr, List.length_cons]
    have hP : t * ((fb + w) / t) + (fb + w) % t = fb + w := Nat.div_add_mod _ t
    have hmulsucc : w * (rest.length + 1) = w * rest.length + w :=
      Nat.mul_succ w rest.length
    have hmod_nb : (nb * 2 ^ w + v) % 2 ^ (fb + w) =
        ((nb % 2 ^ fb) * 2 ^ w + v) % 2 ^ (fb + w) := by
      have h1 : nb * 2 ^ w % 2 ^ (fb + w) = (nb % 2 ^ fb) * 2 ^ w := by
        rw [pow_add, Nat.mul_mod_mul_right]
      calc (nb * 2 ^ w + v) % 2 ^ (fb + w)
          = (nb * 2 ^ w % 2 ^ (fb + w) + v) % 2 ^ (fb + w) :=
            (Nat.mod_add_mod _ _ _).symm
        _ = ((nb % 2 ^ fb) * 2 ^ w + v) % 2 ^ (fb + w) := by rw [h1]
    have hS : (nb % 2 ^ fb) * 2 ^ (w * (rest.length + 1)) + beNum w (v :: rest) =
        ((nb % 2 ^ fb) * 2 ^ w + v) * 2 ^ (w * rest.length) + beNum w rest := by
      rw [beNum_cons, hmulsucc, pow_add]
      ring
    refine Prod.ext ?_ (Prod.ext ?_ ?_)
    · -- emitted symbols
      show (List.range ((fb + w) / t)).map
            (fun j => ((nb * 2 ^ w + v) >>> (fb + w - t * (j + 1))) &&&
              (2 ^ t - 1)) ++
          (List.range (((fb + w) % t + w * rest.length) / t)).map
            (bitGroup t
              (((nb * 2 ^ w + v) % 2 ^ ((fb + w) % t)) * 2 ^ (w * rest.length) +
                beNum w rest)
              ((fb + w) % t + w * rest.length)) =
        (List.range ((fb + w * (rest.length + 1)) / t)).map
          (bitGroup t
            ((nb % 2 ^ fb) * 2 ^ (w * (rest.length + 1)) + beNum w (v :: rest))
            (fb + w * (rest.length + 1)))
      have hT : fb + w * (rest.length + 1) =
          t * ((fb + w) / t) + ((fb + w) % t + w * rest.length) := by omega
      have hTdiv : (fb + w * (rest.length + 1)) / t =
          (fb + w) / t + ((fb + w) % t + w * rest.length) / t := by
        rw [hT, Nat.mul_add_div ht]
      rw [hTdiv, List.range_add, List.map_append, List.map_map]
      congr 1
      · refine List.map_congr_left (fun j hj => ?_)
        have hjq : j < (fb + w) / t := List.mem_range.mp hj
        have ha : t * (j + 1) ≤ t * ((fb + w) / t) :=
          Nat.mul_le_mul_left t (by omega)
        have haP : t * (j + 1) ≤ fb + w := by omega
        have htj : t * (j + 1) = t * j + t := by ring
        have hsplit : fb + w * (rest.length + 1) - t * (j + 1) =
            w * rest.length + (fb + w - t * (j + 1)) := by omega
        rw [bitGroup, hS, hsplit, bitGroup_mul_add _ _ hR]
        exact maskShift_congr_mod t (fb + w - t * (j + 1)) hmod_nb (by omega)
      · refine List.map_congr_left (fun j hj => ?_)
        have hjq : j < ((fb + w) % t + w * rest.length) / t := List.mem_range.mp hj
        have ha : t * (j + 1) ≤ t * (((fb + w) % t + w * rest.length) / t) :=
          Nat.mul_le_mul_left t (by omega)
        have hdm : t * (((fb + w) % t + w * rest.length) / t) ≤
            (fb + w) % t + w * rest.length := by
          rw [Nat.mul_comm]
          exact Nat.div_mul_le_self _ t
        have hjt : t * (j + 1) ≤ (fb + w) % t + w * rest.length := by omega
        have htj : t * (j + 1) = t * j + t := by ring
        have htsum : t * (((fb + w) / t) + j + 1) =
            t * ((fb + w) / t) + t * (j + 1) := by ring
        have hTT : fb + w * (rest.length + 1) - t * (((fb + w) / t) + j + 1) =
            (fb + w) % t + w * rest.length - t * (j + 1) := by omega
        have hfb'le : (fb + w) % t ≤ fb + w := Nat.mod_le _ _
        have hA : (nb * 2 ^ w + v) % 2 ^ ((fb + w) % t) =
            ((nb % 2 ^ fb) * 2 ^ w + v) % 2 ^ ((fb + w) % t) := by
          have h2 : (2 : Nat) ^ ((fb + w) % t) ∣ 2 ^ (fb + w) :=
            pow_dvd_pow 2 hfb'le
          calc (nb * 2 ^ w + v) % 2 ^ ((fb + w) % t)
              = (nb * 2 ^ w + v) % 2 ^ (fb + w) % 2 ^ ((fb + w) % t) :=
                (Nat.mod_mod_of_dvd _ h2).symm
            _ = ((nb % 2 ^ fb) * 2 ^ w + v) % 2 ^ (fb + w) %
                  2 ^ ((fb + w) % t) := by rw [hmod_nb]
            _ = ((nb % 2 ^ fb) * 2 ^ w + v) % 2 ^ ((fb + w) % t) :=
                Nat.mod_mod_of_dvd _ h2
        have hmodTr : (((nb * 2 ^ w + v) % 2 ^ ((fb + w) % t)) *
              2 ^ (w * rest.length) + beNum w rest) %
              2 ^ ((fb + w) % t + w * rest.length) =
            (((nb % 2 ^ fb) * 2 ^ w + v) * 2 ^ (w * rest.length) +
              beNum w rest) % 2 ^ ((fb + w) % t + w * rest.length) := by
          conv_rhs => rw [← Nat.mod_add_mod]
          conv_lhs => rw [← Nat.mod_add_mod]
          rw [pow_add, Nat.mul_mod_mul_right, Nat.mul_mod_mul_right, hA,
            Nat.mod_mod_of_dvd _ dvd_rfl]
        simp only [Function.comp]
        rw [bitGroup, bitGroup, hS, hTT]
        exact maskShift_congr_mod t _ hmodTr (by omega)
    · -- final accumulator
      show (nb * 2 ^ w + v) * 2 ^ (w * rest.length) + beNum w rest =
        nb * 2 ^ (w * (rest.length + 1)) + beNum w (v :: rest)
      rw [beNum_cons, hmulsucc, pow_add]
      ring
    · -- final bit count
      show ((fb + w) % t + w * rest.length) % t =
        (fb + w * (rest.length + 1)) % t
      rw [Nat.mod_add_mod]
      congr 1
      omega

theorem shiftRight_mul_add {H R m : Nat} (hR : R < 2 ^ m) :
    (H * 2 ^ m + R) >>> m = H := by
  rw [Nat.shiftRight_eq_div_pow, Nat.mul_comm H (2 ^ m),
    Nat.mul_add_div (Nat.pos_pow_of_pos m (by norm_num)),
    Nat.div_eq_of_lt hR, Nat.add_zero]


theorem shiftRight_mul_pow_add (N p s : Nat) :
    (N * 2 ^ p) >>> (p + s) = N >>> s := by
  simp only [Nat.shiftRight_eq_div_pow]
  rw [pow_add, ← Nat.div_div_eq_div_mul,
    Nat.mul_div_cancel N (Nat.pos_pow_of_pos p (by norm_num))]

/-- `convert_bits` without padding: the `⌊w·n/t⌋` complete `t`-bit groups
of the input bit string; leftover bits are dropped. -/
theorem convert_bits_false_spec {w t : Nat} (ht : 0 < t) (data : List Nat)
    (hd : ∀ x ∈ data, x < 2 ^ w) :
    convert_bits data w t false =
      (List.range ((w * data.length) / t)).map
        (bitGroup t (beNum w data) (w * data.length)) := by
  have h := cbLoop_spec ht data 0 0 ht hd
  simp only [convert_bits, h]
  simp

/-- `convert_bits` with padding: the `⌈w·n/t⌉` `t`-bit groups of the input
bit string left-justified into a whole number of `t`-bit groups. -/
theorem convert_bits_true_spec {w t : Nat} (ht : 0 < t) (data : List Nat)
    (hd : ∀ x ∈ data, x < 2 ^ w) :
    convert_bits data w t true =
      (List.range ((w * data.length + t - 1) / t)).map
        (bitGroup t
          (beNum w data *
            2 ^ (t * ((w * data.length + t - 1) / t) - w * data.length))
          (t * ((w * data.length + t - 1) / t))) := by
  have h := cbLoop_spec ht data 0 0 ht hd
  have hdm := Nat.div_add_mod (w * data.length) t
  have hmlt : w * data.length % t < t := Nat.mod_lt _ ht
  simp only [convert_bits, h, Nat.zero_add, Nat.zero_mod, Nat.zero_mul,
    eq_self_iff_true, true_and]
  rcases Nat.eq_zero_or_pos (w * data.length % t) with hz | hpos
  · -- no leftover bits: the pad branch is not taken
    have hm : (w * data.length + t - 1) / t = w * data.length / t := by
      have h1 : w * data.length + t - 1 =
          t * (w * data.length / t) + (t - 1) := by omega
      have hq : (t - 1) / t = 0 := Nat.div_eq_of_lt (by omega)
      rw [h1, Nat.mul_add_div ht, hq, Nat.add_zero]
    have hTm : t * ((w * data.length + t - 1) / t) = w * data.length := by
      rw [hm]; omega
    rw [if_neg (by omega), hTm, hm, Nat.sub_self, pow_zero, Nat.mul_one]
  · -- leftover bits: one padded group is appended
    have hm : (w * data.length + t - 1) / t = w * data.length / t + 1 := by
      have h1 : w * data.length + t - 1 =
          t * (w * data.length / t) + (w * data.length % t + t - 1) := by omega
      have h3 : t ≤ w * data.length % t + t - 1 := by omega
      have h2 : (w * data.length % t + t - 1) / t = 1 := by
        rw [Nat.div_eq_sub_div ht h3,
          Nat.div_eq_of_lt (show w * data.length % t + t - 1 - t < t by omega)]
      rw [h1, Nat.mul_add_div ht, h2]
    have h4 : t * (w * data.length / t + 1) = t * (w * data.length / t) + t := by
      ring
    have hpad : t * (w * data.length / t + 1) - w * data.length =
        t - w * data.length % t := by omega
    rw [if_pos (by omega), hm, hpad, List.range_succ, List.map_append]
    congr 1
    · refine List.map_congr_left (fun j hj => ?_)
      have hjq : j < w * data.length / t := List.mem_range.mp hj
      have ha : t * (j + 1) ≤ t * (w * data.length / t) :=
        Nat.mul_le_mul_left t (by omega)
      have hsplit : t * (w * data.length / t + 1) - t * (j + 1) =
          (t - w * data.length % t) + (w * data.length - t * (j + 1)) := by
        omega
      rw [bitGroup, bitGroup, hsplit, shiftRight_mul_pow_add]
    · have hT0 : t * (w * data.length / t + 1) -
          t * (w * data.length / t + 1) = 0 := Nat.sub_self _
      simp only [List.map_cons, List.map_nil, bitGroup]
      rw [show t * (w * data.length / t + 1) - t * (w * data.length / t + 1)
          = 0 from hT0, Nat.shiftRight_zero, Nat.shiftLeft_eq, shiftLeft_one_mask]

/-- Recombining the `t`-bit groups of a value below `2 ^ (w·m)` recovers
the value. -/
theorem beNum_bitGroups {w : Nat} (_hw : 0 < w) :
    ∀ (m x : Nat), x < 2 ^ (w * m) →
    beNum w ((List.range m).map (bitGroup w x (w * m))) = x := by
  intro m
  induction m with
  | zero =>
    intro x hx
    simp only [Nat.mul_zero, pow_zero, Nat.lt_one_iff] at hx
    simp [beNum, hx]
  | succ m ih =>
    intro x hx
    rw [List.range_succ_eq_map, List.map_cons, List.map_map, beNum_cons]
    have hms : w * (m + 1) = w * m + w := Nat.mul_succ w m
    have hdivlt : x / 2 ^ (w * m) < 2 ^ w := by
      rw [Nat.div_lt_iff_lt_mul (Nat.pos_pow_of_pos (w * m) (by norm_num)),
        ← pow_add]
      rw [hms] at hx
      exact lt_of_lt_of_le hx (by rw [Nat.add_comm])
    have hhead : bitGroup w x (w * (m + 1)) 0 = x / 2 ^ (w * m) := by
      rw [bitGroup, and_mask_eq_mod, Nat.shiftRight_eq_div_pow]
      have h1 : w * (m + 1) - w * (0 + 1) = w * m := by omega
      rw [h1, Nat.mod_eq_of_lt hdivlt]
    have htail : (List.range m).map (bitGroup w x (w * (m + 1)) ∘ Nat.succ) =
        (List.range m).map (bitGroup w (x % 2 ^ (w * m)) (w * m)) := by
      refine List.map_congr_left (fun j hj => ?_)
      have hjm : j < m := List.mem_range.mp hj
      have hj1 : w * (j + 1) ≤ w * m := Nat.mul_le_mul_left w (by omega)
      have hj0 : w * 1 ≤ w * (j + 1) := Nat.mul_le_mul_left w (by omega)
      have hj0' : w * 1 = w := Nat.mul_one w
      have hj2 : w * (j + 1 + 1) = w * (j + 1) + w := Nat.mul_succ w (j + 1)
      have harith : w * (m + 1) - w * (j + 1 + 1) = w * m - w * (j + 1) := by
        omega
      simp only [Function.comp_apply, Nat.succ_eq_add_one, bitGroup, harith]
      have hmm : x % 2 ^ (w * m) = x % 2 ^ (w * m) % 2 ^ (w * m) :=
        (Nat.mod_mod_of_dvd _ dvd_rfl).symm
      exact maskShift_congr_mod w _ hmm (by omega)
    rw [hhead, htail, ih (x % 2 ^ (w * m))
      (Nat.mod_lt _ (Nat.pos_pow_of_pos (w * m) (by norm_num)))]
    simp only [List.length_map, List.length_range]
    conv_rhs => rw [← Nat.div_add_mod x (2 ^ (w * m))]
    ring

/-- Extracting the `w`-bit groups of the big-endian value of a list of
`w`-bit symbols recovers the list. -/
theorem bitGroups_beNum {w : Nat} (_hw : 0 < w) :
    ∀ (data : List Nat), (∀ x ∈ data, x < 2 ^ w) →
    (List.range data.length).map
      (bitGroup w (beNum w data) (w * data.length)) = data := by
  intro data
  induction data with
  | nil => intro _; simp
  | cons v rest ih =>
    intro hv
    have hvw : v < 2 ^ w := hv v (by simp)
    have hrest : ∀ x ∈ rest, x < 2 ^ w := fun x hx => hv x (by simp [hx])
    have hR : beNum w rest < 2 ^ (w * rest.length) := beNum_lt w rest hrest
    have hms : w * (rest.length + 1) = w * rest.length + w :=
      Nat.mul_succ w rest.length
    rw [List.length_cons, List.range_succ_eq_map, List.map_cons, List.map_map]
    have hhead : bitGroup w (beNum w (v :: rest)) (w * (rest.length + 1)) 0 = v := by
      rw [bitGroup, beNum_cons]
      have h1 : w * (rest.length + 1) - w * (0 + 1) = w * rest.length := by omega
      rw [h1, shiftRight_mul_add hR, and_mask_eq_mod, Nat.mod_eq_of_lt hvw]
    have htail : (List.range rest.length).map
        (bitGroup w (beNum w (v :: rest)) (w * (rest.length + 1)) ∘ Nat.succ) =
        (List.range rest.length).map
          (bitGroup w (beNum w rest) (w * rest.length)) := by
      refine List.map_congr_left (fun j hj => ?_)
      have hjm : j < rest.length := List.mem_range.mp hj
      have hj1 : w * (j + 1) ≤ w * rest.length :=
        Nat.mul_le_mul_left w (by omega)
      have hj0 : w * 1 ≤ w * (j + 1) := Nat.mul_le_mul_left w (by omega)
      have hj0' : w * 1 = w := Nat.mul_one w
      have hj2 : w * (j + 1 + 1) = w * (j + 1) + w := Nat.mul_succ w (j + 1)
      have harith : w * (rest.length + 1) - w * (j + 1 + 1) =
          w * rest.length - w * (j + 1) := by omega
      simp only [Function.comp_apply, Nat.succ_eq_add_one, bitGroup, harith]
      have hmm : beNum w (v :: rest) % 2 ^ (w * rest.length) =
          beNum w rest % 2 ^ (w * rest.length) := by
        rw [beNum_cons, Nat.mul_comm v (2 ^ (w * rest.length)), Nat.mul_add_mod]
      exact maskShift_congr_mod w _ hmm (by omega)
    rw [hhead, htail, ih hrest]

/-- The 8→5 regrouping with padding followed by the 5→8 regrouping
without padding is the identity on byte lists (the zero pad bits are
silently dropped by the second conversion). -/
theorem convert_roundtrip (data : List Nat) (hd : ∀ x ∈ data, x < 2 ^ 8) :
    convert_bits (convert_bits data 8 5 true) 5 8 false = data := by
  have h5 : (0:Nat) < 5 := by norm_num
  have h8 : (0:Nat) < 8 := by norm_num
  have henc := convert_bits_true_spec h5 data hd
  have hN : beNum 8 data < 2 ^ (8 * data.length) := beNum_lt 8 data hd
  -- abbreviations via generalization
  have hm1 : 8 * data.length ≤ 5 * ((8 * data.length + 5 - 1) / 5) := by omega
  have hm2 : 5 * ((8 * data.length + 5 - 1) / 5) ≤ 8 * data.length + 4 := by
    omega
  have hlen : (convert_bits data 8 5 true).length =
      (8 * data.length + 5 - 1) / 5 := by
    rw [henc, List.length_map, List.length_range]
  have hel : ∀ x ∈ convert_bits data 8 5 true, x < 2 ^ 5 := by
    rw [henc]
    intro x hx
    rcases List.mem_map.mp hx with ⟨j, _, hj⟩
    rw [← hj]
    exact bitGroup_lt _ _ _ _
  have hN' : beNum 8 data *
      2 ^ (5 * ((8 * data.length + 5 - 1) / 5) - 8 * data.length) <
      2 ^ (5 * ((8 * data.length + 5 - 1) / 5)) := by
    calc beNum 8 data *
        2 ^ (5 * ((8 * data.length + 5 - 1) / 5) - 8 * data.length)
        < 2 ^ (8 * data.length) *
          2 ^ (5 * ((8 * data.length + 5 - 1) / 5) - 8 * data.length) :=
          (Nat.mul_lt_mul_right (Nat.pos_pow_of_pos _ (by norm_num))).mpr hN
      _ = 2 ^ (5 * ((8 * data.length + 5 - 1) / 5)) := by
          rw [← pow_add]
          congr 1
          omega
  have hbe : beNum 5 (convert_bits data 8 5 true) =
      beNum 8 data *
        2 ^ (5 * ((8 * data.length + 5 - 1) / 5) - 8 * data.length) := by
    rw [henc]
    exact beNum_bitGroups h5 _ _ hN'
  rw [convert_bits_false_spec h8 _ hel, hlen, hbe]
  have hq : 5 * ((8 * data.length + 5 - 1) / 5) / 8 = data.length := by omega
  rw [hq]
  have hgroups : ∀ j ∈ List.range data.length,
      bitGroup 8
        (beNum 8 data *
          2 ^ (5 * ((8 * data.length + 5 - 1) / 5) - 8 * data.length))
        (5 * ((8 * data.length + 5 - 1) / 5)) j =
      bitGroup 8 (beNum 8 data) (8 * data.length) j := by
    intro j hj
    have hjl : j < data.length := List.mem_range.mp hj
    have hsplit : 5 * ((8 * data.length + 5 - 1) / 5) - 8 * (j + 1) =
        (5 * ((8 * data.length + 5 - 1) / 5) - 8 * data.length) +
          (8 * data.length - 8 * (j + 1)) := by omega
    rw [bitGroup, bitGroup, hsplit, shiftRight_mul_pow_add]
  rw [List.map_congr_left hgroups, bitGroups_beNum h8 data hd]

/-! ### Alphabet facts -/

theorem charset_get_index : ∀ b : Nat, b < 32 →
    CHARSET.get? b = some (CHARSET.getD b 0) ∧
    CHARSET.indexOf (CHARSET.getD b 0) = b ∧
    CHARSET.getD b 0 ∈ CHARSET ∧
    pyToLower (CHARSET.getD b 0) = CHARSET.getD b 0 ∧
    CHARSET.getD b 0 ≠ 58 := by decide

theorem encode_to_base32_ok : ∀ bs : List Nat, (∀ b ∈ bs, b < 32) →
    encode_to_base32 bs = some (bs.map (fun b => CHARSET.getD b 0)) := by
  intro bs
  induction bs with
  | nil => intro _; rfl
  | cons b rest ih =>
    intro h
    have hb : b < 32 := h b (by simp)
    have hget := (charset_get_index b hb).1
    simp only [encode_to_base32, hget, ih (fun x hx => h x (by simp [hx])),
      List.map_cons]

theorem decode_from_base32_encode : ∀ bs : List Nat, (∀ b ∈ bs, b < 32) →
    decode_from_base32 (bs.map (fun b => CHARSET.getD b 0)) = .ok bs := by
  intro bs
  induction bs with
  | nil => intro _; rfl
  | cons b rest ih =>
    intro h
    have hb : b < 32 := h b (by simp)
    obtain ⟨_, hidx, hmem, hlow, _⟩ := charset_get_index b hb
    simp only [List.map_cons, decode_from_base32, hlow, hidx,
      ih (fun x hx => h x (by simp [hx])), if_pos hmem]

theorem base32_chars_props (bs : List Nat) (h : ∀ b ∈ bs, b < 32) :
    ∀ c ∈ bs.map (fun b => CHARSET.getD b 0),
      c ∈ CHARSET ∧ pyToLower c = c ∧ c ≠ 58 := by
  intro c hc
  rcases List.mem_map.mp hc with ⟨b, hbmem, hbc⟩
  obtain ⟨_, _, hmem, hlow, hne⟩ := charset_get_index b (h b hbmem)
  exact hbc ▸ ⟨hmem, hlow, hne⟩

theorem calculate_checksum_lt (pfx data : List Nat) :
    ∀ x ∈ calculate_checksum pfx data, x < 32 := by
  intro x hx
  rcases List.mem_map.mp hx with ⟨i, _, hi⟩
  rw [← hi]
  have h31 : (0x1f : Nat) = 2 ^ 5 - 1 := by norm_num
  rw [h31, and_mask_eq_mod]
  exact Nat.mod_lt _ (by norm_num)

theorem calculate_checksum_length (pfx data : List Nat) :
    (calculate_checksum pfx data).length = 8 := by
  simp [calculate_checksum, CHECKSUM_LENGTH]

/-! ### `pyRfind` facts -/

theorem pyRfind_not_mem {c : Nat} : ∀ {l : List Nat}, c ∉ l → pyRfind c l = -1 := by
  intro l
  induction l with
  | nil => intro _; rfl
  | cons x xs ih =>
    intro h
    have hx : x ≠ c := fun hc => h (by simp [hc])
    have hxs : c ∉ xs := fun hc => h (by simp [hc])
    simp only [pyRfind, ih hxs]
    norm_num [hx]

theorem pyRfind_append {c : Nat} (a : List Nat) {b : List Nat} (hb : c ∉ b) :
    pyRfind c (a ++ c :: b) = (a.length : Int) := by
  induction a with
  | nil =>
    simp only [List.nil_append, pyRfind, pyRfind_not_mem hb]
    norm_num
  | cons x a' ih =>
    simp only [List.cons_append, pyRfind, List.append_eq, ih, List.length_cons]
    have h0 : (0 : Int) ≤ (a'.length : Int) := Int.natCast_nonneg _
    rw [if_pos h0]
    push_cast
    ring

/-! ### Encode → decode round trip -/

theorem decode_encode_ver (pfx payload : List Nat) (version : Nat)
    (hpl : pfx.map pyToLower = pfx) (_hpc : (58 : Nat) ∉ pfx)
    (hpn : 0 < pfx.length) (hlen : payload.length = 20)
    (hpb : ∀ b ∈ payload, b < 256) (hv : version < 256) :
    (hoosat_bech32_encode_ver pfx payload version).map hoosat_bech32_decode =
      some (.ok (pfx, payload, version)) := by
  have h256 : (2 : Nat) ^ 8 = 256 := by norm_num
  have hd : ∀ x ∈ version :: payload, x < 2 ^ 8 := by
    intro x hx
    rw [h256]
    rcases List.mem_cons.mp hx with h | h
    · exact h ▸ hv
    · exact hpb x h
  have hdl : (version :: payload).length = 21 := by simp [hlen]
  set C := convert_bits (version :: payload) 8 5 true with hCdef
  have hclen : C.length = 34 := by
    rw [hCdef, convert_bits_true_spec (by norm_num) _ hd, List.length_map,
      List.length_range, hdl]
  have hcel : ∀ x ∈ C, x < 32 := by
    rw [hCdef, convert_bits_true_spec (by norm_num) _ hd]
    intro x hx
    rcases List.mem_map.mp hx with ⟨j, _, hj⟩
    have h32 : (2 : Nat) ^ 5 = 32 := by norm_num
    exact hj ▸ (h32 ▸ bitGroup_lt 5 _ _ j)
  set K := calculate_checksum pfx C with hKdef
  have hKlen : K.length = 8 := calculate_checksum_length pfx C
  have hcomb : ∀ b ∈ C ++ K, b < 32 := by
    intro b hb
    rcases List.mem_append.mp hb with h | h
    · exact hcel b h
    · exact calculate_checksum_lt pfx C b h
  set s := (C ++ K).map (fun b => CHARSET.getD b 0) with hsdef
  have hslen : s.length = 42 := by
    rw [hsdef, List.length_map, List.length_append, hclen, hKlen]
  have hsprops := base32_chars_props (C ++ K) hcomb
  have hsnocolon : (58 : Nat) ∉ s := fun h => (hsprops 58 h).2.2 rfl
  have hslower : s.map pyToLower = s := by
    have h1 : ∀ c ∈ s, pyToLower c = id c := fun c hc => (hsprops c hc).2.1
    rw [List.map_congr_left h1, List.map_id]
  have henc32 : encode_to_base32 (C ++ K) = some s :=
    encode_to_base32_ok _ hcomb
  have hencv : hoosat_bech32_encode_ver pfx payload version =
      some (pfx ++ 58 :: s) := by
    simp only [hoosat_bech32_encode_ver, ← hCdef, ← hKdef, henc32]
  have hnorm : (pfx ++ 58 :: s).map pyToLower = pfx ++ 58 :: s := by
    rw [List.map_append, List.map_cons, hpl, hslower]
    have h58 : pyToLower 58 = 58 := by decide
    rw [h58]
  have hrf : pyRfind 58 (pfx ++ 58 :: s) = (pfx.length : Int) :=
    pyRfind_append pfx hsnocolon
  have haddrlen : (pfx ++ 58 :: s).length = pfx.length + 43 := by
    rw [List.length_append, List.length_cons, hslen]
  have hdrop : (pfx ++ 58 :: s).drop (pfx.length + 1) = s := by
    rw [show pfx ++ 58 :: s = (pfx ++ [58]) ++ s by simp]
    exact List.drop_left' (by simp)
  have hd32 : decode_from_base32 s = .ok (C ++ K) := by
    rw [hsdef]
    exact decode_from_base32_encode _ hcomb
  have hcombl : (C ++ K).length = 42 := by
    rw [List.length_append, hclen, hKlen]
  have htake : (C ++ K).take ((C ++ K).length - CHECKSUM_LENGTH) = C := by
    rw [hcombl]
    exact List.take_left' hclen
  have hdrop2 : (C ++ K).drop ((C ++ K).length - CHECKSUM_LENGTH) = K := by
    rw [hcombl]
    exact List.drop_left' hclen
  have hver : verify_checksum pfx (C ++ K) = true := by
    rw [verify_checksum, htake, hdrop2, hKdef]
    simp
  have hrt : convert_bits C 5 8 false = version :: payload := by
    rw [hCdef]
    exact convert_roundtrip _ hd
  have hdec : hoosat_bech32_decode (pfx ++ 58 :: s) =
      .ok (pfx, payload, version) := by
    rw [hoosat_bech32_decode]
    rw [haddrlen]
    rw [if_neg (show ¬(pfx.length + 43 < CHECKSUM_LENGTH + 2) by
      simp only [CHECKSUM_LENGTH]; omega)]
    simp only [hnorm, hrf, haddrlen, Int.toNat_ofNat]
    rw [if_neg (show ¬((pfx.length : Int) < 1 ∨
        (pfx.length : Int) + (CHECKSUM_LENGTH : Int) + 1 >
          ((pfx.length + 43 : Nat) : Int)) by
      simp only [CHECKSUM_LENGTH]
      push_cast
      omega)]
    rw [List.take_left, hdrop, hd32]
    simp only [hver, if_true, htake, hrt]
  rw [hencv]
  show some (hoosat_bech32_decode (pfx ++ 58 :: s)) = _
  rw [hdec]

/-- Encoding always succeeds on byte payloads: every regrouped symbol and
every checksum symbol is below 32, so every alphabet lookup is in bounds. -/
theorem encode_ver_some (pfx payload : List Nat) (version : Nat)
    (hpb : ∀ b ∈ payload, b < 256) (hv : version < 256) :
    ∃ s, hoosat_bech32_encode_ver pfx payload version =
        some (pfx ++ 58 :: s) ∧
      s.length = (8 * (payload.length + 1) + 4) / 5 + 8 ∧
      ∀ c ∈ s, c ∈ CHARSET := by
  have h256 : (2 : Nat) ^ 8 = 256 := by norm_num
  have hd : ∀ x ∈ version :: payload, x < 2 ^ 8 := by
    intro x hx
    rw [h256]
    rcases List.mem_cons.mp hx with h | h
    · exact h ▸ hv
    · exact hpb x h
  set C := convert_bits (version :: payload) 8 5 true with hCdef
  have hclen : C.length = (8 * (payload.length + 1) + 4) / 5 := by
    rw [hCdef, convert_bits_true_spec (by norm_num) _ hd, List.length_map,
      List.length_range, List.length_cons]
    omega
  have hcel : ∀ x ∈ C, x < 32 := by
    rw [hCdef, convert_bits_true_spec (by norm_num) _ hd]
    intro x hx
    rcases List.mem_map.mp hx with ⟨j, _, hj⟩
    have h32 : (2 : Nat) ^ 5 = 32 := by norm_num
    exact hj ▸ (h32 ▸ bitGroup_lt 5 _ _ j)
  set K := calculate_checksum pfx C with hKdef
  have hKlen : K.length = 8 := calculate_checksum_length pfx C
  have hcomb : ∀ b ∈ C ++ K, b < 32 := by
    intro b hb
    rcases List.mem_append.mp hb with h | h
    · exact hcel b h
    · exact calculate_checksum_lt pfx C b h
  refine ⟨(C ++ K).map (fun b => CHARSET.getD b 0), ?_, ?_, ?_⟩
  · simp only [hoosat_bech32_encode_ver, ← hCdef, ← hKdef,
      encode_to_base32_ok _ hcomb]
  · rw [List.length_map, List.length_append, hclen, hKlen]
  · intro c hc
    exact (base32_chars_props (C ++ K) hcomb c hc).1

/-- C1: for every valid prefix (`hoosat`, `hoosattest`), every 20-byte
payload, and version byte in `{0, 1}`, decoding inverts encoding:
`hoosat_bech32_decode` applied to the encoded address yields exactly
`(prefix, payload, version)`. -/
theorem C1_address_roundtrip (pfx payload : List Nat) (version : Nat)
    (hp : pfx = HOOSAT_PREFIX ∨ pfx = HOOSATTEST_PREFIX)
    (hlen : payload.length = 20) (hpb : ∀ b ∈ payload, b < 256)
    (hv : version = 0 ∨ version = 1) :
    (hoosat_bech32_encode_ver pfx payload version).map hoosat_bech32_decode =
      some (.ok (pfx, payload, version)) := by
  have hv' : version < 256 := by rcases hv with h | h <;> omega
  rcases hp with h | h <;> subst h
  · exact decode_encode_ver _ _ _ (by decide) (by decide) (by decide)
      hlen hpb hv'
  · exact decode_encode_ver _ _ _ (by decide) (by decide) (by decide)
      hlen hpb hv'

/-- Witness for C1 at the mainnet prefix, the all-zero 20-byte payload
and version byte 1. -/
theorem C1_address_roundtrip_witness :
    (hoosat_bech32_encode_ver HOOSAT_PREFIX (List.replicate 20 0) 1).map
        hoosat_bech32_decode =
      some (.ok (HOOSAT_PREFIX, List.replicate 20 0, 1)) :=
  C1_address_roundtrip HOOSAT_PREFIX (List.replicate 20 0) 1 (Or.inl rfl)
    (by decide) (by decide) (Or.inr rfl)

theorem extract_eq (P s : Nat) (hs : s + 5 ≤ 40) :
    (P >>> s) &&& 0x1f = P % 2 ^ 40 / 2 ^ s % 32 := by
  have h31 : (0x1f : Nat) = 2 ^ 5 - 1 := by norm_num
  have h32 : (32 : Nat) = 2 ^ 5 := by norm_num
  calc (P >>> s) &&& 0x1f
      = P % 2 ^ (s + 5) / 2 ^ s := by
        rw [h31, and_mask_eq_mod, Nat.shiftRight_eq_div_pow,
          Nat.div_mod_eq_mod_mul_div, ← pow_add]
    _ = P % 2 ^ 40 % 2 ^ (s + 5) / 2 ^ s := by
        rw [Nat.mod_mod_of_dvd _ (pow_dvd_pow 2 hs)]
    _ = P % 2 ^ 40 / 2 ^ s % 32 := by
        rw [h32, Nat.div_mod_eq_mod_mul_div, ← pow_add]

/-- C2: the source checksum equals the spec's reference definition: the
step functions agree pointwise and the full 8-symbol checksum (prefix
characters masked to 5 bits, separator zero, payload symbols, 8 zero
flushes, then the low 40 bits split MSB-first into 5-bit groups) agrees
on every prefix and every payload. -/
theorem C2_checksum_matches_spec :
    (∀ p v, polymod_step p v = specPolymodStep p v) ∧
    ∀ pfx data : List Nat,
      calculate_checksum pfx data = specChecksum pfx data := by
  refine ⟨fun p v => rfl, fun pfx data => ?_⟩
  have hPP : specChecksumPolymod pfx data = checksumPolymod pfx data := rfl
  show [(checksumPolymod pfx data >>> 35) &&& 0x1f,
    (checksumPolymod pfx data >>> 30) &&& 0x1f,
    (checksumPolymod pfx data >>> 25) &&& 0x1f,
    (checksumPolymod pfx data >>> 20) &&& 0x1f,
    (checksumPolymod pfx data >>> 15) &&& 0x1f,
    (checksumPolymod pfx data >>> 10) &&& 0x1f,
    (checksumPolymod pfx data >>> 5) &&& 0x1f,
    (checksumPolymod pfx data >>> 0) &&& 0x1f] = specChecksum pfx data
  rw [specChecksum, hPP]
  have hlast : (checksumPolymod pfx data >>> 0) &&& 0x1f =
      checksumPolymod pfx data % 2 ^ 40 % 32 := by
    rw [Nat.shiftRight_zero,
      show (0x1f : Nat) = 2 ^ 5 - 1 from by norm_num, and_mask_eq_mod,
      Nat.mod_mod_of_dvd _ (show (32 : Nat) ∣ 2 ^ 40 from by norm_num)]
    norm_num
  simp only [List.cons.injEq, and_true]
  exact ⟨extract_eq _ 35 (by norm_num), extract_eq _ 30 (by norm_num),
    extract_eq _ 25 (by norm_num), extract_eq _ 20 (by norm_num),
    extract_eq _ 15 (by norm_num), extract_eq _ 10 (by norm_num),
    extract_eq _ 5 (by norm_num), hlast⟩

/-- C5: for every well-formed input (a fixed-network prefix and a 20-byte
payload) `hoosat_bech32_encode` never fails: every regrouped 5-bit symbol
and every checksum symbol lies in `[0, 32)`, so every `CHARSET` lookup is
in bounds and the encoder totally returns the address string
`prefix ++ ':' ++ 42 alphabet characters`. -/
theorem C5_encode_total (pfx payload : List Nat)
    (_hp : pfx = HOOSAT_PREFIX ∨ pfx = HOOSATTEST_PREFIX)
    (hlen : payload.length = 20) (hpb : ∀ b ∈ payload, b < 256) :
    ∃ s, hoosat_bech32_encode pfx payload = some (pfx ++ 58 :: s) ∧
      s.length = 42 ∧ ∀ c ∈ s, c ∈ CHARSET := by
  obtain ⟨s, h1, h2, h3⟩ := encode_ver_some pfx payload 0x01 hpb (by norm_num)
  refine ⟨s, h1, ?_, h3⟩
  rw [h2, hlen]

/-- Witness for C5 at the mainnet prefix and a concrete 20-byte payload. -/
theorem C5_encode_total_witness :
    ∃ s, hoosat_bech32_encode HOOSAT_PREFIX (List.replicate 20 7) =
        some (HOOSAT_PREFIX ++ 58 :: s) ∧
      s.length = 42 ∧ ∀ c ∈ s, c ∈ CHARSET :=
  C5_encode_total HOOSAT_PREFIX (List.replicate 20 7) (Or.inl rfl)
    (by decide) (by decide)

/-- C3 counterexample: `convert_bits` with `pad = false` does not fail on
nonzero leftover bits — on input `[1]` (five leftover bits of value 1,
not forming a complete 8-bit symbol) it silently returns `[]`, exactly
the output produced for the all-zero input `[0]`. -/
theorem C3_counterexample :
    convert_bits [1] 5 8 false = [] ∧ convert_bits [0] 5 8 false = [] := by
  constructor <;>
  · simp only [convert_bits, cbLoop]
    rw [emitLoop]
    simp [emitLoop]

/-- C3 amended: with `pad = false`, `convert_bits` never fails: it emits
exactly `⌊fromBits · n / toBits⌋` complete symbols and silently discards
any leftover bits, whether they are zero or nonzero. -/
theorem C3_nopad_silent_discard (data : List Nat) (w t : Nat) (ht : 0 < t)
    (hd : ∀ x ∈ data, x < 2 ^ w) :
    (convert_bits data w t false).length = w * data.length / t := by
  rw [convert_bits_false_spec ht data hd, List.length_map, List.length_range]

/-- Witness for the amended C3 at the 5→8 decode regrouping on `[1]`. -/
theorem C3_nopad_silent_discard_witness :
    (convert_bits [1] 5 8 false).length = 5 * [1].length / 8 :=
  C3_nopad_silent_discard [1] 5 8 (by decide) (by decide)

/-- C4 counterexample: `wif_to_private_key` returns only the secret bytes;
it does not report the compression flag or the network.  With the
identity base58 codec and a fixed 4-byte digest, the WIF encodings for
`compressed = true` and `compressed = false` of the same secret decode to
the *same* value (the bare secret), so the decode result cannot be the
three-component tuple `(secret, compressed, network)` the claim demands. -/
theorem C4_counterexample :
    wif_to_private_key (fun _ => [0, 0, 0, 0]) id
        (private_key_to_wif (fun _ => [0, 0, 0, 0]) id .mainnet
          (List.replicate 32 1) true) =
      wif_to_private_key (fun _ => [0, 0, 0, 0]) id
        (private_key_to_wif (fun _ => [0, 0, 0, 0]) id .mainnet
          (List.replicate 32 1) false) ∧
    wif_to_private_key (fun _ => [0, 0, 0, 0]) id
        (private_key_to_wif (fun _ => [0, 0, 0, 0]) id .mainnet
          (List.replicate 32 1) true) = .ok (List.replicate 32 1) := by
  exact ⟨rfl, rfl⟩

/-- C4 amended: WIF decoding inverts WIF encoding on the secret component:
for every 32-byte secret, both networks and both compression flags — and
for any digest function producing at least 4 bytes and any faithful
base58 codec (both external collaborators, spec §6) — decoding the
encoded WIF returns exactly the secret.  Compression flag and network are
consumed during decoding but are not part of the result. -/
theorem C4_wif_roundtrip_secret (sha : List Nat → List Nat)
    (b58encode b58decode : List Nat → List Nat) (net : Network)
    (private_key : List Nat) (compressed : Bool)
    (hs : private_key.length = 32)
    (hsha : ∀ x, 4 ≤ (sha x).length)
    (hb58 : ∀ x, b58decode (b58encode x) = x) :
    wif_to_private_key sha b58decode
        (private_key_to_wif sha b58encode net private_key compressed) =
      .ok private_key := by
  simp only [private_key_to_wif, wif_to_private_key, hb58]
  have hKlen : ((sha (sha (wifVersionByte net :: private_key ++
      (if compressed then [0x01] else [])))).take 4).length = 4 := by
    rw [List.length_take]
    exact Nat.min_eq_left (hsha _)
  have hlen4 : ((wifVersionByte net :: private_key ++
        (if compressed then [0x01] else [])) ++
      (sha (sha (wifVersionByte net :: private_key ++
        (if compressed then [0x01] else [])))).take 4).length - 4 =
      (wifVersionByte net :: private_key ++
        (if compressed then [0x01] else [])).length := by
    rw [List.length_append, hKlen]
    omega
  rw [hlen4, List.take_left, List.drop_left]
  rw [if_neg (show ¬((sha (sha (wifVersionByte net :: private_key ++
      (if compressed then [0x01] else [])))).take 4 ≠
      (sha (sha (wifVersionByte net :: private_key ++
      (if compressed then [0x01] else [])))).take 4) from by simp)]
  cases compressed
  · have hElen : (wifVersionByte net :: private_key ++
        (if false = true then [0x01] else [])).length = 33 := by
      simp [hs]
    rw [if_pos hElen]
    simp
  · have hElen : (wifVersionByte net :: private_key ++
        (if true = true then [0x01] else [])).length = 34 := by
      simp [hs]
    rw [if_neg (by rw [hElen]; omega), if_pos hElen]
    simp [List.dropLast_concat]

/-- Witness for the amended C4 at a concrete secret on testnet with the
compression flag set, the identity base58 codec and a fixed digest. -/
theorem C4_wif_roundtrip_secret_witness :
    wif_to_private_key (fun _ => [0, 0, 0, 0]) id
        (private_key_to_wif (fun _ => [0, 0, 0, 0]) id .testnet
          (List.replicate 32 5) true) = .ok (List.replicate 32 5) :=
  C4_wif_roundtrip_secret (fun _ => [0, 0, 0, 0]) id id .testnet
    (List.replicate 32 5) true (by decide) (fun _ => Nat.le_refl 4)
    (fun _ => rfl)

/-- C7: checksum verification is a total Boolean predicate: it returns
`true` exactly when the input has at least 8 symbols and its trailing 8
symbols equal the checksum recomputed over the preceding symbols, and
`false` otherwise — in particular on malformed input shorter than 8
symbols it yields `false` rather than an escaping exception. -/
theorem C7_verify_checksum_boolean (pfx data : List Nat) :
    verify_checksum pfx data = true ↔
      8 ≤ data.length ∧
        data.drop (data.length - 8) =
          calculate_checksum pfx (data.take (data.length - 8)) := by
  rw [verify_checksum]
  simp only [CHECKSUM_LENGTH, decide_eq_true_eq]
  constructor
  · intro h
    have hlen := congrArg List.length h
    rw [List.length_drop, calculate_checksum_length] at hlen
    exact ⟨by omega, h⟩
  · exact fun h => h.2

theorem pyToLower_pyToUpper (c : Nat) : pyToLower (pyToUpper c) = pyToLower c := by
  simp only [pyToLower, pyToUpper]
  split_ifs <;> omega

theorem pyToLower_idem (c : Nat) : pyToLower (pyToLower c) = pyToLower c := by
  simp only [pyToLower]
  split_ifs <;> omega

/-- The decoder depends on its input only through its length and its
lowercased form. -/
theorem decode_congr (s s' : List Nat) (hl : s.length = s'.length)
    (hm : s.map pyToLower = s'.map pyToLower) :
    hoosat_bech32_decode s = hoosat_bech32_decode s' := by
  rw [hoosat_bech32_decode, hoosat_bech32_decode, hl, hm]

/-- C8: decoding is case-invariant: uppercasing the whole input never
changes the decode result, and every input decodes exactly like its
lowercased form — so mixed-case variants of a valid address decode
identically to the lowercase canonical form. -/
theorem C8_case_invariance (s : List Nat) :
    hoosat_bech32_decode (s.map pyToUpper) = hoosat_bech32_decode s ∧
    hoosat_bech32_decode (s.map pyToLower) = hoosat_bech32_decode s := by
  constructor
  · refine decode_congr _ _ (by simp) ?_
    rw [List.map_map]
    exact List.map_congr_left (fun c _ => pyToLower_pyToUpper c)
  · refine decode_congr _ _ (by simp) ?_
    rw [List.map_map]
    exact List.map_congr_left (fun c _ => pyToLower_idem c)

theorem polymod_step_lt (p v : Nat) (hv : v < 32) :
    polymod_step p v < 2 ^ 40 := by
  have heq : polymod_step p v = specPolymodStep p v := rfl
  have hc : ((p &&& 0x7FFFFFFFF) <<< 5) ^^^ v < 2 ^ 40 := by
    refine Nat.xor_lt_two_pow ?_ (lt_of_lt_of_le hv (by norm_num))
    rw [show (0x7FFFFFFFF : Nat) = 2 ^ 35 - 1 from by norm_num,
      and_mask_eq_mod, Nat.shiftLeft_eq]
    calc p % 2 ^ 35 * 2 ^ 5 < 2 ^ 35 * 2 ^ 5 := by
          exact (Nat.mul_lt_mul_right (by norm_num)).mpr
            (Nat.mod_lt _ (by norm_num))
      _ = 2 ^ 40 := by norm_num
  have hite : ∀ (b : Prop) [Decidable b] (x g : Nat), x < 2 ^ 40 →
      g < 2 ^ 40 → (if b then x ^^^ g else x) < 2 ^ 40 := by
    intro b _ x g hx hg
    split_ifs
    · exact Nat.xor_lt_two_pow hx hg
    · exact hx
  rw [heq, specPolymodStep]
  exact hite _ _ _ (hite _ _ _ (hite _ _ _ (hite _ _ _ (hite _ _ _ hc
    (by norm_num)) (by norm_num)) (by norm_num)) (by norm_num)) (by norm_num)

theorem foldl_polymod_lt : ∀ (l : List Nat), (∀ x ∈ l, x < 32) →
    ∀ p, p < 2 ^ 40 → l.foldl polymod_step p < 2 ^ 40 := by
  intro l
  induction l with
  | nil => intro _ p hp; simpa using hp
  | cons x xs ih =>
    intro hl p hp
    simp only [List.foldl_cons]
    exact ih (fun y hy => hl y (by simp [hy])) _
      (polymod_step_lt p x (hl x (by simp)))

theorem checksumPolymod_lt (pfx data : List Nat)
    (hdata : ∀ x ∈ data, x < 32) : checksumPolymod pfx data < 2 ^ 40 := by
  rw [checksumPolymod]
  have hmask : ∀ ch : Nat, ch &&& 0x1f < 32 := by
    intro ch
    rw [show (0x1f : Nat) = 2 ^ 5 - 1 from by norm_num, and_mask_eq_mod]
    exact Nat.mod_lt _ (by norm_num)
  have h1 : ∀ (l : List Nat) (p : Nat), p < 2 ^ 40 →
      l.foldl (fun p ch => polymod_step p (ch &&& 0x1f)) p < 2 ^ 40 := by
    intro l
    induction l with
    | nil => intro p hp; simpa using hp
    | cons x xs ih =>
      intro p hp
      simp only [List.foldl_cons]
      exact ih _ (polymod_step_lt p _ (hmask x))
  have h4 : ∀ (l : List Nat) (p : Nat), p < 2 ^ 40 →
      l.foldl (fun p _ => polymod_step p 0) p < 2 ^ 40 := by
    intro l
    induction l with
    | nil => intro p hp; simpa using hp
    | cons x xs ih =>
      intro p hp
      simp only [List.foldl_cons]
      exact ih _ (polymod_step_lt p 0 (by norm_num))
  exact h4 _ _ (foldl_polymod_lt data hdata _
    (polymod_step_lt _ 0 (by norm_num)))

theorem calculate_checksum_recombine (pfx data : List Nat)
    (hdata : ∀ x ∈ data, x < 32) :
    beNum 5 (calculate_checksum pfx data) = checksumPolymod pfx data := by
  have hP : checksumPolymod pfx data < 2 ^ (5 * 8) := by
    have h := checksumPolymod_lt pfx data hdata
    norm_num at h ⊢
    exact h
  have hmap : calculate_checksum pfx data =
      (List.range 8).map (bitGroup 5 (checksumPolymod pfx data) (5 * 8)) := by
    rw [calculate_checksum]
    show (List.range 8).map _ = _
    refine List.map_congr_left (fun i hi => ?_)
    have hilt : i < 8 := List.mem_range.mp hi
    rw [bitGroup, show (0x1f : Nat) = 2 ^ 5 - 1 from by norm_num,
      show 5 * 8 - 5 * (i + 1) = 5 * (7 - i) from by omega]
  rw [hmap]
  exact beNum_bitGroups (by norm_num) 8 _ hP

/-- C9: invariant of the checksum accumulator: each step on a 5-bit value
keeps the accumulator below `2^40`; the accumulator of every checksum
computation (seeded at 1) is below `2^40`; the 8 extracted 5-bit groups
recombine to the entire accumulator (nothing is lost in the extraction);
and each extracted symbol is a valid 5-bit value. -/
theorem C9_polymod_invariant (p v : Nat) (_hp : p < 2 ^ 40) (hv : v < 32)
    (pfx data : List Nat) (hdata : ∀ x ∈ data, x < 32) :
    polymod_step p v < 2 ^ 40 ∧
    checksumPolymod pfx data < 2 ^ 40 ∧
    beNum 5 (calculate_checksum pfx data) = checksumPolymod pfx data ∧
    ∀ c ∈ calculate_checksum pfx data, c < 32 :=
  ⟨polymod_step_lt p v hv, checksumPolymod_lt pfx data hdata,
   calculate_checksum_recombine pfx data hdata,
   fun c hc => calculate_checksum_lt pfx data c hc⟩

/-- Witness for C9 at `p = 0`, `v = 0` and the empty prefix and payload. -/
theorem C9_polymod_invariant_witness :
    polymod_step 0 0 < 2 ^ 40 ∧ checksumPolymod [] [] < 2 ^ 40 ∧
    beNum 5 (calculate_checksum [] []) = checksumPolymod [] [] := by
  have h := C9_polymod_invariant 0 0 (by decide) (by decide) [] [] (by decide)
  exact ⟨h.1, h.2.1, h.2.2.1⟩

/-- C10: the syntactically well-formed input `"hoosat:36kpp9ks"` — whose
data part is exactly the 8 checksum symbols of the empty payload for the
`hoosat` prefix — passes the length, separator, character and checksum
checks, leaves an empty regrouped sequence, and then the `converted[0]`
access raises the untyped Python `IndexError` (modelled by
`DecodeErr.indexError`) instead of an error of the decode taxonomy. -/
theorem C10_empty_payload_index_error :
    decode_from_base32 [51, 54, 107, 112, 112, 57, 107, 115] =
        .ok [17, 26, 22, 1, 1, 5, 22, 16] ∧
    verify_checksum HOOSAT_PREFIX [17, 26, 22, 1, 1, 5, 22, 16] = true ∧
    hoosat_bech32_decode
        (HOOSAT_PREFIX ++ 58 :: [51, 54, 107, 112, 112, 57, 107, 115]) =
      .error .indexError := by
  exact ⟨rfl, rfl, rfl⟩

theorem d32_ok_of_all : ∀ l : List Nat, (∀ c ∈ l, pyToLower c ∈ CHARSET) →
    ∃ r, decode_from_base32 l = .ok r := by
  intro l
  induction l with
  | nil => intro _; exact ⟨[], rfl⟩
  | cons c rest ih =>
    intro h
    obtain ⟨r, hr⟩ := ih (fun x hx => h x (by simp [hx]))
    refine ⟨CHARSET.indexOf (pyToLower c) :: r, ?_⟩
    simp only [decode_from_base32, if_pos (h c (by simp)), hr]

theorem d32_err_of_bad : ∀ l : List Nat, (∃ c ∈ l, pyToLower c ∉ CHARSET) →
    ∃ c', decode_from_base32 l = .error (.invalidChar c') := by
  intro l
  induction l with
  | nil =>
    intro h
    obtain ⟨c, hc, _⟩ := h
    cases hc
  | cons c rest ih =>
    intro h
    obtain ⟨x, hx, hxbad⟩ := h
    by_cases hc : pyToLower c ∈ CHARSET
    · have hxr : x ∈ rest := by
        rcases List.mem_cons.mp hx with h' | h'
        · exact absurd (h' ▸ hc) hxbad
        · exact h'
      obtain ⟨c', hc'⟩ := ih ⟨x, hxr, hxbad⟩
      refine ⟨c', ?_⟩
      simp only [decode_from_base32, if_pos hc, hc']
    · exact ⟨pyToLower c, by simp only [decode_from_base32, if_neg hc]⟩

/-- C6 counterexample: for the 10-character input `":qqqqqqqqq"` the last
`':'` is present (at position 0) and 9 ≥ 8 symbols follow it, so the
claim's BadSeparator condition does not hold — yet the decoder rejects
the input with the separator error, because the guard `colon_index < 1`
also fires for a colon at position 0 (empty prefix). -/
theorem C6_counterexample :
    hoosat_bech32_decode (58 :: List.replicate 9 113) =
        .error .invalidColon ∧
      pyRfind 58 ((58 :: List.replicate 9 113).map pyToLower) = 0 ∧
      (58 :: List.replicate 9 113).length = 10 := by
  exact ⟨rfl, rfl, rfl⟩

/-- C6 amended: the decoder fails with the length error exactly when the
input is shorter than 10 characters (so decoding `"hoosat:"` fails with
it); with the separator error exactly when, after lowercasing, no `':'`
is present, the last `':'` is at position 0, or fewer than 8 symbols
follow the last `':'` (equivalently `colon_index < 1` or
`colon_index + 9 > length`); with a character error exactly when the
earlier checks pass and some data character is outside the 32-character
alphabet; with the checksum error exactly when all earlier checks pass
and checksum verification returns false; and every input decodes exactly
like its lowercased form. -/
theorem C6_decode_error_conditions (s : List Nat) :
    ((∃ n, hoosat_bech32_decode s = .error (.invalidLength n)) ↔
      s.length < 10) ∧
    (hoosat_bech32_decode s = .error .invalidColon ↔
      10 ≤ s.length ∧
        (pyRfind 58 (s.map pyToLower) < 1 ∨
          pyRfind 58 (s.map pyToLower) + 9 > (s.length : Int))) ∧
    ((∃ c, hoosat_bech32_decode s = .error (.invalidChar c)) ↔
      10 ≤ s.length ∧
        ¬(pyRfind 58 (s.map pyToLower) < 1 ∨
          pyRfind 58 (s.map pyToLower) + 9 > (s.length : Int)) ∧
        ∃ c ∈ (s.map pyToLower).drop
          ((pyRfind 58 (s.map pyToLower)).toNat + 1), pyToLower c ∉ CHARSET) ∧
    (hoosat_bech32_decode s = .error .checksumFailed ↔
      10 ≤ s.length ∧
        ¬(pyRfind 58 (s.map pyToLower) < 1 ∨
          pyRfind 58 (s.map pyToLower) + 9 > (s.length : Int)) ∧
        ∃ decoded, decode_from_base32 ((s.map pyToLower).drop
            ((pyRfind 58 (s.map pyToLower)).toNat + 1)) = .ok decoded ∧
          verify_checksum ((s.map pyToLower).take
            (pyRfind 58 (s.map pyToLower)).toNat) decoded = false) ∧
    hoosat_bech32_decode (s.map pyToLower) = hoosat_bech32_decode s ∧
    hoosat_bech32_decode [104, 111, 111, 115, 97, 116, 58] =
      .error (.invalidLength 7) := by
  have hlow : hoosat_bech32_decode (s.map pyToLower) =
      hoosat_bech32_decode s := by
    refine decode_congr _ _ (by simp) ?_
    rw [List.map_map]
    exact List.map_congr_left (fun c _ => pyToLower_idem c)
  have hconcrete : hoosat_bech32_decode [104, 111, 111, 115, 97, 116, 58] =
      .error (.invalidLength 7) := rfl
  by_cases h1 : s.length < 10
  · have hd : hoosat_bech32_decode s = .error (.invalidLength s.length) := by
      rw [hoosat_bech32_decode]
      exact if_pos (by simp only [CHECKSUM_LENGTH]; omega)
    refine ⟨⟨fun _ => h1, fun _ => ⟨s.length, hd⟩⟩, ?_, ?_, ?_, hlow, hconcrete⟩
    · constructor
      · intro h
        rw [hd] at h
        simp at h
      · intro h
        omega
    · constructor
      · intro ⟨c, h⟩
        rw [hd] at h
        simp at h
      · intro h
        omega
    · constructor
      · intro h
        rw [hd] at h
        simp at h
      · intro h
        omega
  · have hc1 : ¬(s.length < CHECKSUM_LENGTH + 2) := by
      simp only [CHECKSUM_LENGTH]
      omega
    by_cases h2 : pyRfind 58 (s.map pyToLower) < 1 ∨
        pyRfind 58 (s.map pyToLower) + 9 > (s.length : Int)
    · have hd : hoosat_bech32_decode s = .error .invalidColon := by
        rw [hoosat_bech32_decode, if_neg hc1]
        refine if_pos ?_
        simp only [CHECKSUM_LENGTH, List.length_map]
        rcases h2 with h | h
        · exact Or.inl h
        · right
          omega
      refine ⟨?_, ⟨fun _ => ⟨by omega, h2⟩, fun _ => hd⟩, ?_, ?_, hlow, hconcrete⟩
      · constructor
        · intro ⟨n, h⟩
          rw [hd] at h
          simp at h
        · intro h
          omega
      · constructor
        · intro ⟨c, h⟩
          rw [hd] at h
          simp at h
        · intro ⟨_, hn2, _⟩
          exact absurd h2 hn2
      · constructor
        · intro h
          rw [hd] at h
          simp at h
        · intro ⟨_, hn2, _⟩
          exact absurd h2 hn2
    · have hc2 : ¬(pyRfind 58 (s.map pyToLower) < 1 ∨
          pyRfind 58 (s.map pyToLower) + (CHECKSUM_LENGTH : Int) + 1 >
            ((s.map pyToLower).length : Int)) := by
        simp only [CHECKSUM_LENGTH, List.length_map]
        push_neg at h2 ⊢
        omega
      by_cases h3 : ∀ c ∈ (s.map pyToLower).drop
          ((pyRfind 58 (s.map pyToLower)).toNat + 1), pyToLower c ∈ CHARSET
      · obtain ⟨r, hr⟩ := d32_ok_of_all _ h3
        by_cases h4 : verify_checksum ((s.map pyToLower).take
            (pyRfind 58 (s.map pyToLower)).toNat) r = true
        · have hd : hoosat_bech32_decode s =
              (match convert_bits (r.take (r.length - CHECKSUM_LENGTH))
                  5 8 false with
                | [] => Except.error DecodeErr.indexError
                | version :: rest =>
                  Except.ok ((s.map pyToLower).take
                    (pyRfind 58 (s.map pyToLower)).toNat, rest, version)) := by
            rw [hoosat_bech32_decode, if_neg hc1, if_neg hc2]
            simp only [hr]
            rw [if_pos h4]
          rcases hconv : convert_bits (r.take (r.length - CHECKSUM_LENGTH))
              5 8 false with _ | ⟨v, rest⟩ <;> simp only [hconv] at hd
          · refine ⟨?_, ?_, ?_, ?_, hlow, hconcrete⟩
            · constructor
              · intro ⟨n, h⟩
                rw [hd] at h
                simp at h
              · intro h
                omega
            · constructor
              · intro h
                rw [hd] at h
                simp at h
              · intro ⟨_, hh⟩
                exact absurd hh h2
            · constructor
              · intro ⟨c, h⟩
                rw [hd] at h
                simp at h
              · intro ⟨_, _, c, hc, hbad⟩
                exact absurd (h3 c hc) hbad
            · constructor
              · intro h
                rw [hd] at h
                simp at h
              · intro ⟨_, _, decoded, hdec, hvf⟩
                rw [hr] at hdec
                have hrd : r = decoded := by
                  injection hdec
                rw [← hrd, h4] at hvf
                simp at hvf
          · refine ⟨?_, ?_, ?_, ?_, hlow, hconcrete⟩
            · constructor
              · intro ⟨n, h⟩
                rw [hd] at h
                simp at h
              · intro h
                omega
            · constructor
              · intro h
                rw [hd] at h
                simp at h
              · intro ⟨_, hh⟩
                exact absurd hh h2
            · constructor
              · intro ⟨c, h⟩
                rw [hd] at h
                simp at h
              · intro ⟨_, _, c, hc, hbad⟩
                exact absurd (h3 c hc) hbad
            · constructor
              · intro h
                rw [hd] at h
                simp at h
              · intro ⟨_, _, decoded, hdec, hvf⟩
                rw [hr] at hdec
                have hrd : r = decoded := by
                  injection hdec
                rw [← hrd, h4] at hvf
                simp at hvf
        · have h4f : verify_checksum ((s.map pyToLower).take
              (pyRfind 58 (s.map pyToLower)).toNat) r = false := by
            rw [Bool.not_eq_true] at h4
            exact h4
          have hd : hoosat_bech32_decode s = .error .checksumFailed := by
            rw [hoosat_bech32_decode, if_neg hc1, if_neg hc2]
            simp only [hr]
            rw [if_neg h4]
          refine ⟨?_, ?_, ?_,
            ⟨fun _ => ⟨by omega, h2, r, hr, h4f⟩, fun _ => hd⟩,
            hlow, hconcrete⟩
          · constructor
            · intro ⟨n, h⟩
              rw [hd] at h
              simp at h
            · intro h
              omega
          · constructor
            · intro h
              rw [hd] at h
              simp at h
            · intro ⟨_, hh⟩
              exact absurd hh h2
          · constructor
            · intro ⟨c, h⟩
              rw [hd] at h
              simp at h
            · intro ⟨_, _, c, hc, hbad⟩
              exact absurd (h3 c hc) hbad
      · push_neg at h3
        obtain ⟨c', hc'⟩ := d32_err_of_bad _ h3
        have hd : hoosat_bech32_decode s = .error (.invalidChar c') := by
          rw [hoosat_bech32_decode, if_neg hc1, if_neg hc2]
          simp only [hc']
        refine ⟨?_, ?_,
          ⟨fun _ => ⟨by omega, h2, h3⟩, fun _ => ⟨c', hd⟩⟩, ?_,
          hlow, hconcrete⟩
        · constructor
          · intro ⟨n, h⟩
            rw [hd] at h
            simp at h
          · intro h
            omega
        · constructor
          · intro h
            rw [hd] at h
            simp at h
          · intro ⟨_, hh⟩
            exact absurd hh h2
        · constructor
          · intro h
            rw [hd] at h
            simp at h
          · intro ⟨_, _, decoded, hdec, _⟩
            rw [hc'] at hdec
            simp at hdec
